import Mathlib

/-!
Verification of the approximate-text-matching core of the cse-mcp server
(`src/index.ts`): the Levenshtein `DistanceEngine`, the tiered
`ScoringPolicy`, and the `Ranker` (`searchCompanies`).  Strings are modelled
as Lean `String`/`List Char`; the catalog data is ASCII, so ASCII
lower-casing models the JavaScript `toLowerCase` call.
-/

/-- One catalog record, from `interface Company` in `src/index.ts`. -/
structure Company where
  id : Int
  symbol : String
  name : String
deriving DecidableEq, Repr

/-- Models `String.prototype.toLowerCase` (ASCII range, which covers the
catalog data and queries compared by the core). -/
def toLowerCase (s : String) : String :=
  String.mk (s.data.map Char.toLower)

/-- Cell `(i+1, j)` of the Levenshtein matrix of `levenshteinDistance`,
computed from row `i` (supplied as the function `prev`).  `bc` is
`b.charAt(i)`; the character test at column `j+1` compares it with
`a.charAt(j)`, exactly as in the source loop body. -/
def levCellStep (a : List Char) (bc : Option Char) (i : Nat) (prev : Nat → Nat) : Nat → Nat
  | 0 => i + 1
  | j + 1 =>
    if bc = a.get? j then prev j
    else 1 + min (prev j) (min (levCellStep a bc i prev j) (prev (j + 1)))

/-- Cell `(i, j)` of the dynamic-programming matrix built by
`levenshteinDistance` in `src/index.ts`: row `0` and column `0` are
`0..len`, and each inner cell is the diagonal value on a character match,
otherwise `1 + min(diagonal, left, up)`.  Memoisation in the source is an
efficiency detail; the cell values satisfy exactly this recurrence. -/
def levCell (a b : List Char) : Nat → Nat → Nat
  | 0, j => j
  | i + 1, j => levCellStep a (b.get? i) i (levCell a b i) j

/-- `levenshteinDistance(a, b)` from `src/index.ts`: the bottom-right cell
`matrix[b.length][a.length]` of the dynamic-programming matrix. -/
def levenshteinDistance (a b : String) : Nat :=
  levCell a.data b.data b.data.length a.data.length

/-- Reference recursive definition of the Levenshtein distance, used to
relate the matrix of `levenshteinDistance` to the edit-operation
characterisation. -/
def lev : List Char → List Char → Nat
  | [], ys => ys.length
  | x :: xs, [] => (x :: xs).length
  | x :: xs, y :: ys =>
    if x = y then lev xs ys
    else 1 + min (lev xs ys) (min (lev (x :: xs) ys) (lev xs (y :: ys)))
termination_by xs ys => xs.length + ys.length

/-- Models `nameLower.split(/\s+/)`: runs of whitespace separate the
segments; a leading or trailing run yields an empty segment, and the empty
string splits to one empty segment, as in ECMAScript.  `skipping` records
that the previous character belonged to a separator run, `acc` holds the
current segment reversed. -/
def splitWsGo (skipping : Bool) (acc : List Char) : List Char → List (List Char)
  | [] => [acc.reverse]
  | c :: rest =>
    if c.isWhitespace then
      if skipping then splitWsGo true [] rest
      else acc.reverse :: splitWsGo true [] rest
    else splitWsGo false (c :: acc) rest

/-- `s.split(/\s+/)` as a list of strings. -/
def splitWhitespace (s : String) : List String :=
  (splitWsGo false [] s.data).map (fun w => String.mk w)

/-- `Math.min(...list)` for the nonempty word-distance list (the `[]` case
is unreachable: `splitWhitespace` never returns an empty list). -/
def minList : List Nat → Nat
  | [] => 0
  | x :: xs => xs.foldl min x

/-- The per-company score computed inside `searchCompanies`:
tier 1 (exact, score 0), tier 2 (substring, score 1), else the minimum of
the three fuzzy distances. `searchTerm` is the already lower-cased query. -/
def score (searchTerm : String) (company : Company) : Nat :=
  let symbolLower := toLowerCase company.symbol
  let nameLower := toLowerCase company.name
  if symbolLower = searchTerm ∨ nameLower = searchTerm then 0
  else if searchTerm.data <:+: symbolLower.data ∨ searchTerm.data <:+: nameLower.data then 1
  else
    let symbolDistance := levenshteinDistance searchTerm symbolLower
    let nameDistance := levenshteinDistance searchTerm nameLower
    let nameWords := splitWhitespace nameLower
    let wordDistances := nameWords.map (fun word => levenshteinDistance searchTerm word)
    let minWordDistance := minList wordDistances
    min symbolDistance (min nameDistance minWordDistance)

/-- Insert a scored company after every element of no greater score:
the insertion step of a stable ascending sort on the score key. -/
def insertScored (x : Company × Nat) : List (Company × Nat) → List (Company × Nat)
  | [] => [x]
  | y :: ys => if y.2 ≤ x.2 then y :: insertScored x ys else x :: y :: ys

/-- Models `companiesWithScores.sort((a, b) => a.score - b.score)`:
ECMAScript guarantees `Array.prototype.sort` is stable, and the stable
ascending order on the score key is unique, realised here as a stable
insertion sort processing the array left to right. -/
def sortScored (l : List (Company × Nat)) : List (Company × Nat) :=
  l.foldl (fun acc x => insertScored x acc) []

/-- The sorted score/company list built by `searchCompanies` before the
top-3 selection. -/
def rankedCompanies (companies : List Company) (query : String) : List (Company × Nat) :=
  let searchTerm := toLowerCase query
  sortScored (companies.map (fun company => (company, score searchTerm company)))

/-- `searchCompanies(query)` from `src/index.ts`, with the module-level
`companies` array passed explicitly: score every company, sort by score
ascending (stable), return the first three companies. -/
def searchCompanies (companies : List Company) (query : String) : List Company :=
  ((rankedCompanies companies query).take 3).map (fun item => item.1)

/-- The module-level mutable binding `companies` threaded as explicit
state: the result of the call together with the value of the binding after
the call.  The body of `searchCompanies` contains no assignment to
`companies` (its only writes are to the per-call local array
`companiesWithScores`), so the post-state is the pre-state. -/
def searchCompaniesSt (companies : List Company) (query : String) :
    List Company × List Company :=
  (searchCompanies companies query, companies)

/-- A single edit operation: insert, delete or substitute one character at
an arbitrary position. -/
inductive Edit : List Char → List Char → Prop
  | ins (pre post : List Char) (c : Char) : Edit (pre ++ post) (pre ++ c :: post)
  | del (pre post : List Char) (c : Char) : Edit (pre ++ c :: post) (pre ++ post)
  | sub (pre post : List Char) (c d : Char) : Edit (pre ++ c :: post) (pre ++ d :: post)

/-- `Edits n xs ys`: `xs` is transformed into `ys` by `n` single-character
edit operations. -/
inductive Edits : Nat → List Char → List Char → Prop
  | refl (xs : List Char) : Edits 0 xs xs
  | step {n : Nat} {xs ys zs : List Char} :
      Edit xs ys → Edits n ys zs → Edits (n + 1) xs zs

theorem lev_nil_left (ys : List Char) : lev [] ys = ys.length := by
  simp [lev]

theorem lev_nil_right (xs : List Char) : lev xs [] = xs.length := by
  cases xs <;> simp [lev]

theorem lev_cons_cons (x y : Char) (xs ys : List Char) :
    lev (x :: xs) (y :: ys) =
      if x = y then lev xs ys
      else 1 + min (lev xs ys) (min (lev (x :: xs) ys) (lev xs (y :: ys))) := by
  rw [lev]

theorem lev_self (xs : List Char) : lev xs xs = 0 := by
  induction xs with
  | nil => simp [lev]
  | cons x xs ih => rw [lev_cons_cons]; simp [ih]

/-- Adding or removing one character at the head of either argument changes
`lev` by at most one.  The four inequalities are proved simultaneously by
induction on the total length. -/
theorem lev_lip (xs ys : List Char) (c : Char) :
    lev xs (c :: ys) ≤ lev xs ys + 1 ∧
    lev (c :: xs) ys ≤ lev xs ys + 1 ∧
    lev xs ys ≤ lev (c :: xs) ys + 1 ∧
    lev xs ys ≤ lev xs (c :: ys) + 1 := by
  refine ⟨?_, ?_, ?_, ?_⟩
  · cases xs with
    | nil => simp [lev_nil_left]
    | cons x xs' =>
      rw [lev_cons_cons]
      by_cases hx : x = c
      · subst hx
        simpa using (lev_lip xs' ys x).2.2.1
      · have h1 : min (lev xs' ys) (min (lev (x :: xs') ys) (lev xs' (c :: ys))) ≤
            lev (x :: xs') ys := le_trans (min_le_right _ _) (min_le_left _ _)
        simp only [if_neg hx]
        omega
  · cases ys with
    | nil => simp [lev_nil_right]
    | cons y ys' =>
      rw [lev_cons_cons]
      by_cases hc : c = y
      · subst hc
        simpa using (lev_lip xs ys' c).2.2.2
      · have h1 : min (lev xs ys') (min (lev (c :: xs) ys') (lev xs (y :: ys'))) ≤
            lev xs (y :: ys') := le_trans (min_le_right _ _) (min_le_right _ _)
        simp only [if_neg hc]
        omega
  · cases ys with
    | nil => simp [lev_nil_right]; omega
    | cons y ys' =>
      rw [lev_cons_cons]
      by_cases hc : c = y
      · subst hc
        simpa using (lev_lip xs ys' c).1
      · have h1 : lev xs (y :: ys') ≤ lev xs ys' + 1 := (lev_lip xs ys' y).1
        have h2 : lev xs ys' ≤ lev (c :: xs) ys' + 1 := (lev_lip xs ys' c).2.2.1
        simp only [if_neg hc]
        omega
  · cases xs with
    | nil => simp [lev_nil_left]; omega
    | cons x xs' =>
      rw [lev_cons_cons]
      by_cases hx : x = c
      · subst hx
        simpa using (lev_lip xs' ys x).2.1
      · have h1 : lev (x :: xs') ys ≤ lev xs' ys + 1 := (lev_lip xs' ys x).2.1
        have h2 : lev xs' ys ≤ lev xs' (c :: ys) + 1 := (lev_lip xs' ys c).2.2.2
        simp only [if_neg hx]
        omega
termination_by xs.length + ys.length
decreasing_by all_goals simp_arith

/-- Substituting the head character changes `lev` by at most one. -/
theorem lev_sub_head (c d : Char) (xs zs : List Char) :
    lev (c :: xs) zs ≤ lev (d :: xs) zs + 1 := by
  cases zs with
  | nil => simp [lev_nil_right]
  | cons z zs' =>
    rw [lev_cons_cons, lev_cons_cons]
    by_cases hc : c = z <;> by_cases hd : d = z
    · simp [if_pos hc, if_pos hd]
    · have h1 : lev xs zs' ≤ lev (d :: xs) zs' + 1 := (lev_lip xs zs' d).2.2.1
      have h2 : lev xs zs' ≤ lev xs (z :: zs') + 1 := (lev_lip xs zs' z).2.2.2
      simp only [if_pos hc, if_neg hd]
      omega
    · have h1 : min (lev xs zs') (min (lev (c :: xs) zs') (lev xs (z :: zs'))) ≤
          lev xs zs' := min_le_left _ _
      simp only [if_neg hc, if_pos hd]
      omega
    · have h1 : lev xs zs' ≤ lev (d :: xs) zs' + 1 := (lev_lip xs zs' d).2.2.1
      simp only [if_neg hc, if_neg hd]
      omega

/-- A one-sided Lipschitz bound between first arguments is preserved by
prepending a common head character. -/
theorem lev_cons_lip (p : Char) {u v : List Char}
    (h : ∀ zs, lev u zs ≤ lev v zs + 1) :
    ∀ zs, lev (p :: u) zs ≤ lev (p :: v) zs + 1 := by
  intro zs
  induction zs with
  | nil =>
    have h0 := h []
    simp only [lev_nil_right, List.length_cons] at h0 ⊢
    omega
  | cons z zs' ih =>
    rw [lev_cons_cons, lev_cons_cons]
    by_cases hp : p = z
    · simpa [if_pos hp] using h zs'
    · have h1 := h zs'
      have h3 := h (z :: zs')
      simp only [if_neg hp]
      omega

/-- Deleting one character anywhere in the first argument lowers `lev` by at
most one. -/
theorem lev_del_le (pre post : List Char) (c : Char) :
    ∀ zs, lev (pre ++ c :: post) zs ≤ lev (pre ++ post) zs + 1 := by
  induction pre with
  | nil => exact fun zs => (lev_lip post zs c).2.1
  | cons p pre' ih =>
    intro zs
    simpa using lev_cons_lip p ih zs

/-- Inserting one character anywhere in the first argument raises `lev` by
at most one. -/
theorem lev_ins_le (pre post : List Char) (c : Char) :
    ∀ zs, lev (pre ++ post) zs ≤ lev (pre ++ c :: post) zs + 1 := by
  induction pre with
  | nil => exact fun zs => (lev_lip post zs c).2.2.1
  | cons p pre' ih =>
    intro zs
    simpa using lev_cons_lip p ih zs

/-- Substituting one character anywhere in the first argument changes `lev`
by at most one. -/
theorem lev_subst_le (pre post : List Char) (c d : Char) :
    ∀ zs, lev (pre ++ c :: post) zs ≤ lev (pre ++ d :: post) zs + 1 := by
  induction pre with
  | nil => exact fun zs => lev_sub_head c d post zs
  | cons p pre' ih =>
    intro zs
    simpa using lev_cons_lip p ih zs

theorem edit_cons (c : Char) {xs ys : List Char} (h : Edit xs ys) :
    Edit (c :: xs) (c :: ys) := by
  cases h with
  | ins pre post d => exact Edit.ins (c :: pre) post d
  | del pre post d => exact Edit.del (c :: pre) post d
  | sub pre post d e => exact Edit.sub (c :: pre) post d e

theorem edits_cons (c : Char) {n : Nat} {xs ys : List Char} (h : Edits n xs ys) :
    Edits n (c :: xs) (c :: ys) := by
  induction h with
  | refl => exact Edits.refl _
  | step h1 _ ih => exact Edits.step (edit_cons c h1) ih

theorem edits_snoc {n : Nat} {xs ys zs : List Char}
    (h : Edits n xs ys) (h2 : Edit ys zs) : Edits (n + 1) xs zs := by
  induction h generalizing zs with
  | refl => exact Edits.step h2 (Edits.refl _)
  | step h1 _ ih => exact Edits.step h1 (ih h2)

theorem edit_symm {xs ys : List Char} (h : Edit xs ys) : Edit ys xs := by
  cases h with
  | ins pre post c => exact Edit.del pre post c
  | del pre post c => exact Edit.ins pre post c
  | sub pre post c d => exact Edit.sub pre post d c

theorem edits_symm {n : Nat} {xs ys : List Char} (h : Edits n xs ys) :
    Edits n ys xs := by
  induction h with
  | refl => exact Edits.refl _
  | step h1 _ ih => exact edits_snoc ih (edit_symm h1)

theorem edit_reverse {xs ys : List Char} (h : Edit xs ys) :
    Edit xs.reverse ys.reverse := by
  cases h with
  | ins pre post c =>
    have e1 : (pre ++ post).reverse = post.reverse ++ pre.reverse := by simp
    have e2 : (pre ++ c :: post).reverse = post.reverse ++ c :: pre.reverse := by simp
    rw [e1, e2]
    exact Edit.ins post.reverse pre.reverse c
  | del pre post c =>
    have e1 : (pre ++ post).reverse = post.reverse ++ pre.reverse := by simp
    have e2 : (pre ++ c :: post).reverse = post.reverse ++ c :: pre.reverse := by simp
    rw [e1, e2]
    exact Edit.del post.reverse pre.reverse c
  | sub pre post c d =>
    have e1 : (pre ++ c :: post).reverse = post.reverse ++ c :: pre.reverse := by simp
    have e2 : (pre ++ d :: post).reverse = post.reverse ++ d :: pre.reverse := by simp
    rw [e1, e2]
    exact Edit.sub post.reverse pre.reverse c d

theorem edits_reverse {n : Nat} {xs ys : List Char} (h : Edits n xs ys) :
    Edits n xs.reverse ys.reverse := by
  induction h with
  | refl => exact Edits.refl _
  | step h1 _ ih => exact Edits.step (edit_reverse h1) ih

theorem edits_of_nil (ys : List Char) : Edits ys.length [] ys := by
  induction ys with
  | nil => exact Edits.refl _
  | cons y ys ih => exact Edits.step (Edit.ins [] [] y) (edits_cons y ih)

theorem edits_to_nil (xs : List Char) : Edits xs.length xs [] := by
  induction xs with
  | nil => exact Edits.refl _
  | cons x xs ih => exact Edits.step (Edit.del [] xs x) ih

/-- `lev xs ys` edit operations suffice to transform `xs` into `ys`. -/
theorem lev_achieve (xs ys : List Char) : Edits (lev xs ys) xs ys := by
  cases xs with
  | nil => rw [lev_nil_left]; exact edits_of_nil ys
  | cons x xs' =>
    cases ys with
    | nil => rw [lev_nil_right]; exact edits_to_nil _
    | cons y ys' =>
      rw [lev_cons_cons]
      by_cases hx : x = y
      · subst hx
        simp only [if_pos rfl]
        exact edits_cons x (lev_achieve xs' ys')
      · simp only [if_neg hx]
        rcases le_total (lev xs' ys') (min (lev (x :: xs') ys') (lev xs' (y :: ys'))) with h | h
        · rw [min_eq_left h, Nat.add_comm]
          exact Edits.step (Edit.sub [] xs' x y) (edits_cons y (lev_achieve xs' ys'))
        · rw [min_eq_right h]
          rcases le_total (lev (x :: xs') ys') (lev xs' (y :: ys')) with h2 | h2
          · rw [min_eq_left h2, Nat.add_comm]
            exact edits_snoc (lev_achieve (x :: xs') ys') (Edit.ins [] ys' y)
          · rw [min_eq_right h2, Nat.add_comm]
            exact Edits.step (Edit.del [] xs' x) (lev_achieve xs' (y :: ys'))
termination_by xs.length + ys.length
decreasing_by all_goals simp_arith

theorem edit_lev_le {xs ys : List Char} (h : Edit xs ys) (zs : List Char) :
    lev xs zs ≤ lev ys zs + 1 := by
  cases h with
  | ins pre post c => exact lev_ins_le pre post c zs
  | del pre post c => exact lev_del_le pre post c zs
  | sub pre post c d => exact lev_subst_le pre post c d zs

/-- No sequence of fewer than `lev xs ys` edit operations transforms `xs`
into `ys`. -/
theorem lev_le_of_edits {n : Nat} {xs ys : List Char} (h : Edits n xs ys) :
    lev xs ys ≤ n := by
  induction h with
  | refl => simp [lev_self]
  | @step n xs ys zs h1 htail ih =>
    have h2 := edit_lev_le h1 zs
    omega

theorem lev_comm (xs ys : List Char) : lev xs ys = lev ys xs :=
  le_antisymm (lev_le_of_edits (edits_symm (lev_achieve ys xs)))
    (lev_le_of_edits (edits_symm (lev_achieve xs ys)))

theorem lev_reverse (xs ys : List Char) :
    lev xs.reverse ys.reverse = lev xs ys := by
  refine le_antisymm (lev_le_of_edits (edits_reverse (lev_achieve xs ys))) ?_
  have h := lev_le_of_edits (edits_reverse (lev_achieve xs.reverse ys.reverse))
  simpa using h

/-- Matrix cell `(i, j)` holds the recursive Levenshtein distance of the
reversed `b`-prefix of length `i` and the reversed `a`-prefix of length
`j`. -/
theorem levCell_eq_lev (a b : List Char) (i j : Nat)
    (hi : i ≤ b.length) (hj : j ≤ a.length) :
    levCell a b i j = lev ((b.take i).reverse) ((a.take j).reverse) := by
  cases i with
  | zero =>
    have hlen : ((a.take j).reverse).length = j := by
      simp [List.length_take, min_eq_left hj]
    rw [show levCell a b 0 j = j from rfl, List.take_zero, List.reverse_nil,
      lev_nil_left, hlen]
  | succ i' =>
    have hi' : i' < b.length := hi
    have hbget : b.get? i' = some (b.get ⟨i', hi'⟩) := List.get?_eq_get hi'
    have hb : (b.take (i' + 1)).reverse = b.get ⟨i', hi'⟩ :: (b.take i').reverse := by
      rw [List.take_succ, ← List.get?_eq_getElem?, hbget]
      simp
    cases j with
    | zero =>
      have hlen : ((b.take (i' + 1)).reverse).length = i' + 1 := by
        simp [List.length_take]
        omega
      rw [show levCell a b (i' + 1) 0 = i' + 1 from rfl, List.take_zero,
        List.reverse_nil, lev_nil_right, hlen]
    | succ j' =>
      have hj' : j' < a.length := hj
      have haget : a.get? j' = some (a.get ⟨j', hj'⟩) := List.get?_eq_get hj'
      have ha : (a.take (j' + 1)).reverse = a.get ⟨j', hj'⟩ :: (a.take j').reverse := by
        rw [List.take_succ, ← List.get?_eq_getElem?, haget]
        simp
      have hL : levCell a b (i' + 1) (j' + 1) =
          if b.get? i' = a.get? j' then levCell a b i' j'
          else 1 + min (levCell a b i' j')
            (min (levCell a b (i' + 1) j') (levCell a b i' (j' + 1))) := rfl
      have e1 := levCell_eq_lev a b i' j' (le_of_lt hi') (le_of_lt hj')
      have e2 := levCell_eq_lev a b (i' + 1) j' hi (le_of_lt hj')
      have e3 := levCell_eq_lev a b i' (j' + 1) (le_of_lt hi') hj
      rw [hb] at e2
      rw [ha] at e3
      rw [hL, hb, ha, lev_cons_cons, hbget, haget]
      by_cases hc : b.get ⟨i', hi'⟩ = a.get ⟨j', hj'⟩
      · rw [if_pos (congrArg some hc), if_pos hc]
        exact e1
      · rw [if_neg (fun h => hc (Option.some.inj h)), if_neg hc, e1, e2, e3]
termination_by i + j
decreasing_by all_goals omega

/-- The matrix result of the source equals the recursive Levenshtein
distance of the two argument strings. -/
theorem levenshteinDistance_eq_lev (a b : String) :
    levenshteinDistance a b = lev a.data b.data := by
  have h := levCell_eq_lev a.data b.data b.data.length a.data.length le_rfl le_rfl
  rw [List.take_length, List.take_length] at h
  rw [levenshteinDistance, h, lev_reverse, lev_comm]

theorem insertScored_length (x : Company × Nat) (l : List (Company × Nat)) :
    (insertScored x l).length = l.length + 1 := by
  induction l with
  | nil => rfl
  | cons y ys ih =>
    simp only [insertScored]
    by_cases h : y.2 ≤ x.2
    · simp [if_pos h, ih]
    · simp [if_neg h]

theorem sortScored_foldl_length (l : List (Company × Nat)) :
    ∀ acc, (l.foldl (fun acc x => insertScored x acc) acc).length =
      acc.length + l.length := by
  induction l with
  | nil => intro acc; simp
  | cons x xs ih =>
    intro acc
    simp only [List.foldl_cons]
    rw [ih, insertScored_length, List.length_cons]
    omega

theorem sortScored_length (l : List (Company × Nat)) :
    (sortScored l).length = l.length := by
  simpa [sortScored] using sortScored_foldl_length l []

theorem mem_insertScored {a x : Company × Nat} {l : List (Company × Nat)} :
    a ∈ insertScored x l ↔ a = x ∨ a ∈ l := by
  induction l with
  | nil => simp [insertScored]
  | cons y ys ih =>
    simp only [insertScored]
    by_cases h : y.2 ≤ x.2
    · simp only [if_pos h, List.mem_cons, ih]
      tauto
    · simp only [if_neg h, List.mem_cons]

theorem mem_sortScored_foldl {a : Company × Nat} (l : List (Company × Nat)) :
    ∀ acc, a ∈ l.foldl (fun acc x => insertScored x acc) acc ↔ a ∈ acc ∨ a ∈ l := by
  induction l with
  | nil => intro acc; simp
  | cons x xs ih =>
    intro acc
    simp only [List.foldl_cons]
    rw [ih, mem_insertScored]
    simp only [List.mem_cons]
    tauto

theorem mem_sortScored {a : Company × Nat} {l : List (Company × Nat)} :
    a ∈ sortScored l ↔ a ∈ l := by
  simpa [sortScored] using mem_sortScored_foldl l []

theorem insertScored_sorted {x : Company × Nat} {l : List (Company × Nat)}
    (h : List.Pairwise (fun a b => a.2 ≤ b.2) l) :
    List.Pairwise (fun a b => a.2 ≤ b.2) (insertScored x l) := by
  induction l with
  | nil => simp [insertScored]
  | cons y ys ih =>
    rw [List.pairwise_cons] at h
    obtain ⟨hy, hys⟩ := h
    simp only [insertScored]
    by_cases hle : y.2 ≤ x.2
    · rw [if_pos hle, List.pairwise_cons]
      refine ⟨?_, ih hys⟩
      intro a ha
      rcases mem_insertScored.mp ha with rfl | ha
      · exact hle
      · exact hy a ha
    · rw [if_neg hle, List.pairwise_cons]
      have hxy : x.2 ≤ y.2 := le_of_not_le hle
      refine ⟨?_, ?_⟩
      · intro a ha
        rcases List.mem_cons.mp ha with rfl | ha
        · exact hxy
        · exact le_trans hxy (hy a ha)
      · rw [List.pairwise_cons]
        exact ⟨hy, hys⟩

theorem sortScored_foldl_sorted (l : List (Company × Nat)) :
    ∀ acc, List.Pairwise (fun a b => a.2 ≤ b.2) acc →
      List.Pairwise (fun a b => a.2 ≤ b.2)
        (l.foldl (fun acc x => insertScored x acc) acc) := by
  induction l with
  | nil => intro acc h; simpa using h
  | cons x xs ih =>
    intro acc h
    simp only [List.foldl_cons]
    exact ih _ (insertScored_sorted h)

theorem sortScored_sorted (l : List (Company × Nat)) :
    List.Pairwise (fun a b => a.2 ≤ b.2) (sortScored l) :=
  sortScored_foldl_sorted l [] List.Pairwise.nil

theorem filter_insertScored (s : Nat) {x : Company × Nat} {l : List (Company × Nat)}
    (hl : List.Pairwise (fun a b => a.2 ≤ b.2) l) :
    (insertScored x l).filter (fun p => p.2 = s) =
      if x.2 = s then l.filter (fun p => p.2 = s) ++ [x]
      else l.filter (fun p => p.2 = s) := by
  induction l with
  | nil =>
    by_cases hx : x.2 = s <;> simp [insertScored, List.filter_cons, hx]
  | cons y ys ih =>
    rw [List.pairwise_cons] at hl
    obtain ⟨hy, hys⟩ := hl
    simp only [insertScored]
    by_cases hle : y.2 ≤ x.2
    · rw [if_pos hle, List.filter_cons, List.filter_cons, ih hys]
      by_cases hy2 : y.2 = s <;> by_cases hx2 : x.2 = s <;>
        simp [hy2, hx2]
    · rw [if_neg hle]
      have hxy : x.2 < y.2 := lt_of_not_le hle
      by_cases hx2 : x.2 = s
      · have hnil : (y :: ys).filter (fun p => p.2 = s) = [] := by
          rw [List.filter_eq_nil_iff]
          intro a ha
          rcases List.mem_cons.mp ha with rfl | ha
          · simp only [decide_eq_true_eq]
            omega
          · have := hy a ha
            simp only [decide_eq_true_eq]
            omega
        rw [hnil]
        simp [List.filter_cons, hx2, hnil]
      · simp [List.filter_cons, hx2]

theorem filter_sortScored_foldl (s : Nat) (l : List (Company × Nat)) :
    ∀ acc, List.Pairwise (fun a b => a.2 ≤ b.2) acc →
      (l.foldl (fun acc x => insertScored x acc) acc).filter (fun p => p.2 = s) =
        acc.filter (fun p => p.2 = s) ++ l.filter (fun p => p.2 = s) := by
  induction l with
  | nil => intro acc _; simp
  | cons x xs ih =>
    intro acc hacc
    simp only [List.foldl_cons]
    rw [ih _ (insertScored_sorted hacc), filter_insertScored s hacc, List.filter_cons]
    by_cases hx : x.2 = s <;> simp [hx]

/-- Stability of the sort: the elements of any one score class come out in
exactly their input order. -/
theorem filter_sortScored (s : Nat) (l : List (Company × Nat)) :
    (sortScored l).filter (fun p => p.2 = s) = l.filter (fun p => p.2 = s) := by
  simpa [sortScored] using filter_sortScored_foldl s l [] List.Pairwise.nil

theorem insertScored_all_le {x : Company × Nat} {l : List (Company × Nat)}
    (h : ∀ p ∈ l, p.2 ≤ x.2) : insertScored x l = l ++ [x] := by
  induction l with
  | nil => rfl
  | cons y ys ih =>
    simp only [insertScored]
    rw [if_pos (h y (by simp)), ih (fun p hp => h p (by simp [hp]))]
    rfl

theorem sortScored_const_foldl (k : Nat) (l : List (Company × Nat)) :
    ∀ acc, (∀ p ∈ l, p.2 = k) → (∀ p ∈ acc, p.2 = k) →
      l.foldl (fun acc x => insertScored x acc) acc = acc ++ l := by
  induction l with
  | nil => intro acc _ _; simp
  | cons x xs ih =>
    intro acc hl hacc
    simp only [List.foldl_cons]
    have hx : x.2 = k := hl x (by simp)
    have hins : insertScored x acc = acc ++ [x] :=
      insertScored_all_le (fun p hp => by rw [hacc p hp, hx])
    rw [hins, ih _ (fun p hp => hl p (by simp [hp])) ?_]
    · simp
    · intro p hp
      rcases List.mem_append.mp hp with h | h
      · exact hacc p h
      · rw [List.mem_singleton.mp h, hx]

/-- A list whose score keys are all equal is left unchanged by the sort. -/
theorem sortScored_const (k : Nat) {l : List (Company × Nat)}
    (h : ∀ p ∈ l, p.2 = k) : sortScored l = l := by
  simpa using sortScored_const_foldl k l [] h (by simp)

theorem foldl_min_le (xs : List Nat) :
    ∀ a, xs.foldl min a ≤ a ∧ ∀ d ∈ xs, xs.foldl min a ≤ d := by
  induction xs with
  | nil => intro a; exact ⟨le_rfl, by simp⟩
  | cons y ys ih =>
    intro a
    simp only [List.foldl_cons]
    obtain ⟨h1, h2⟩ := ih (min a y)
    refine ⟨le_trans h1 (min_le_left _ _), ?_⟩
    intro d hd
    rcases List.mem_cons.mp hd with rfl | hd
    · exact le_trans h1 (min_le_right _ _)
    · exact h2 d hd

/-- `minList` is a lower bound of the list. -/
theorem minList_le {l : List Nat} : ∀ d ∈ l, minList l ≤ d := by
  cases l with
  | nil => simp
  | cons x xs =>
    intro d hd
    rcases List.mem_cons.mp hd with rfl | hd
    · exact (foldl_min_le xs d).1
    · exact (foldl_min_le xs x).2 d hd

theorem foldl_min_mem (xs : List Nat) :
    ∀ a, xs.foldl min a = a ∨ xs.foldl min a ∈ xs := by
  induction xs with
  | nil => intro a; exact Or.inl rfl
  | cons y ys ih =>
    intro a
    simp only [List.foldl_cons]
    rcases ih (min a y) with h | h
    · rcases le_total a y with hay | hay
      · left
        rw [h, min_eq_left hay]
      · right
        rw [h, min_eq_right hay]
        simp
    · right
      simp [h]

/-- `minList` of a nonempty list is attained by one of its elements. -/
theorem minList_mem {l : List Nat} (h : l ≠ []) : minList l ∈ l := by
  cases l with
  | nil => exact absurd rfl h
  | cons x xs =>
    rcases foldl_min_mem xs x with h1 | h1
    · rw [minList, h1]
      simp
    · rw [minList]
      simp [h1]

theorem splitWsGo_ne_nil (l : List Char) :
    ∀ (b : Bool) (acc : List Char), splitWsGo b acc l ≠ [] := by
  induction l with
  | nil => intro b acc; simp [splitWsGo]
  | cons c rest ih =>
    intro b acc
    cases hw : c.isWhitespace <;> cases b <;> simp [splitWsGo, hw] <;>
      exact ih _ _

/-- The word list of the fuzzy tier is never empty. -/
theorem splitWhitespace_ne_nil (s : String) : splitWhitespace s ≠ [] := by
  intro h
  exact splitWsGo_ne_nil s.data false [] (List.map_eq_nil_iff.mp h)

theorem toLowerCase_eq_empty_iff {s : String} : toLowerCase s = "" ↔ s = "" := by
  constructor
  · intro h
    have h1 : s.data.map Char.toLower = [] := congrArg String.data h
    have h2 : s.data = [] := List.map_eq_nil_iff.mp h1
    cases s
    simp_all
  · intro h
    rw [h]
    rfl

theorem rankedCompanies_snd {companies : List Company} {query : String}
    {p : Company × Nat} (hp : p ∈ rankedCompanies companies query) :
    p.2 = score (toLowerCase query) p.1 := by
  simp only [rankedCompanies] at hp
  rw [mem_sortScored] at hp
  obtain ⟨c, _, hc⟩ := List.mem_map.mp hp
  rw [← hc]

theorem rankedCompanies_sorted (companies : List Company) (query : String) :
    List.Pairwise (fun a b => a.2 ≤ b.2) (rankedCompanies companies query) := by
  simp only [rankedCompanies]
  exact sortScored_sorted _

theorem rankedCompanies_length (companies : List Company) (query : String) :
    (rankedCompanies companies query).length = companies.length := by
  simp only [rankedCompanies]
  rw [sortScored_length, List.length_map]

/-- The output of `searchCompanies` is ordered by nondecreasing score. -/
theorem searchCompanies_pairwise (companies : List Company) (query : String) :
    List.Pairwise
      (fun a b => score (toLowerCase query) a ≤ score (toLowerCase query) b)
      (searchCompanies companies query) := by
  rw [searchCompanies, List.pairwise_map]
  have h1 : List.Pairwise (fun a b => a.2 ≤ b.2)
      ((rankedCompanies companies query).take 3) :=
    List.Pairwise.sublist (List.take_sublist 3 _)
      (rankedCompanies_sorted companies query)
  refine List.Pairwise.imp_of_mem ?_ h1
  intro a b ha hb hab
  have ha2 := rankedCompanies_snd (List.take_subset 3 _ ha)
  have hb2 := rankedCompanies_snd (List.take_subset 3 _ hb)
  rw [← ha2, ← hb2]
  exact hab

/-- Tier 1 of the scoring policy. -/
theorem score_exact {searchTerm : String} {c : Company}
    (h : toLowerCase c.symbol = searchTerm ∨ toLowerCase c.name = searchTerm) :
    score searchTerm c = 0 := by
  simp only [score]
  rw [if_pos h]

/-- Tier 2 of the scoring policy. -/
theorem score_substr {searchTerm : String} {c : Company}
    (h1 : ¬(toLowerCase c.symbol = searchTerm ∨ toLowerCase c.name = searchTerm))
    (h2 : searchTerm.data <:+: (toLowerCase c.symbol).data ∨
      searchTerm.data <:+: (toLowerCase c.name).data) :
    score searchTerm c = 1 := by
  simp only [score]
  rw [if_neg h1, if_pos h2]

/-- Tier 3 of the scoring policy. -/
theorem score_fuzzy {searchTerm : String} {c : Company}
    (h1 : ¬(toLowerCase c.symbol = searchTerm ∨ toLowerCase c.name = searchTerm))
    (h2 : ¬(searchTerm.data <:+: (toLowerCase c.symbol).data ∨
      searchTerm.data <:+: (toLowerCase c.name).data)) :
    score searchTerm c =
      min (levenshteinDistance searchTerm (toLowerCase c.symbol))
        (min (levenshteinDistance searchTerm (toLowerCase c.name))
          (minList ((splitWhitespace (toLowerCase c.name)).map
            (fun word => levenshteinDistance searchTerm word)))) := by
  simp only [score]
  rw [if_neg h1, if_neg h2]

/-- C1: for every entity in the catalog and every query, if the lower-cased
query equals the lower-cased symbol or the lower-cased name of the entity,
then the score of that entity is 0, and in the sorted output of
`searchCompanies` that entity is never placed after an entity whose score
is nonzero. -/
theorem exact_match_ranks_first (companies : List Company) (query : String)
    (e : Company) (_he : e ∈ companies)
    (h : toLowerCase query = toLowerCase e.symbol ∨
      toLowerCase query = toLowerCase e.name) :
    score (toLowerCase query) e = 0 ∧
    ∀ (i j : Fin (searchCompanies companies query).length), i < j →
      (searchCompanies companies query).get j = e →
      score (toLowerCase query) ((searchCompanies companies query).get i) = 0 := by
  have hs : score (toLowerCase query) e = 0 := by
    apply score_exact
    rcases h with h | h
    · exact Or.inl h.symm
    · exact Or.inr h.symm
  refine ⟨hs, ?_⟩
  intro i j hij hj
  have hp := List.pairwise_iff_get.mp (searchCompanies_pairwise companies query) i j hij
  rw [hj, hs] at hp
  exact Nat.le_zero.mp hp

theorem exact_match_ranks_first_witness :
    ((⟨1, "JKH", "JOHN"⟩ : Company) ∈
        [(⟨1, "JKH", "JOHN"⟩ : Company), ⟨2, "AB", "CD"⟩]) ∧
    (toLowerCase "jkh" = toLowerCase "JKH" ∨ toLowerCase "jkh" = toLowerCase "JOHN") ∧
    (score (toLowerCase "jkh") ⟨1, "JKH", "JOHN"⟩ = 0 ∧
      ∀ (i j : Fin (searchCompanies
          [(⟨1, "JKH", "JOHN"⟩ : Company), ⟨2, "AB", "CD"⟩] "jkh").length),
        i < j →
        (searchCompanies [(⟨1, "JKH", "JOHN"⟩ : Company), ⟨2, "AB", "CD"⟩] "jkh").get j =
          ⟨1, "JKH", "JOHN"⟩ →
        score (toLowerCase "jkh")
          ((searchCompanies [(⟨1, "JKH", "JOHN"⟩ : Company), ⟨2, "AB", "CD"⟩] "jkh").get i) =
          0) :=
  ⟨by decide, by decide,
    exact_match_ranks_first _ "jkh" _ (by decide) (by decide)⟩

/-- C2: for every entity and query, if the lower-cased query is a substring
of the lower-cased symbol or name but the exact tier does not apply, the
score of that entity is exactly 1, and in the sorted output it is placed
before every entity whose score is at least 2. -/
theorem substring_match_outranks (companies : List Company) (query : String)
    (e : Company)
    (h1 : ¬(toLowerCase e.symbol = toLowerCase query ∨
      toLowerCase e.name = toLowerCase query))
    (h2 : (toLowerCase query).data <:+: (toLowerCase e.symbol).data ∨
      (toLowerCase query).data <:+: (toLowerCase e.name).data) :
    score (toLowerCase query) e = 1 ∧
    ∀ (i j : Fin (searchCompanies companies query).length),
      (searchCompanies companies query).get i = e →
      2 ≤ score (toLowerCase query) ((searchCompanies companies query).get j) →
      i < j := by
  have hs : score (toLowerCase query) e = 1 := score_substr h1 h2
  refine ⟨hs, ?_⟩
  intro i j hi hj2
  by_contra hij
  push_neg at hij
  rcases lt_or_eq_of_le hij with hlt | heq
  · have hp := List.pairwise_iff_get.mp (searchCompanies_pairwise companies query) j i hlt
    rw [hi, hs] at hp
    omega
  · rw [heq, hi, hs] at hj2
    omega

theorem substring_match_outranks_witness :
    (¬(toLowerCase "JKH" = toLowerCase "jk" ∨ toLowerCase "JOHN" = toLowerCase "jk")) ∧
    ((toLowerCase "jk").data <:+: (toLowerCase "JKH").data ∨
      (toLowerCase "jk").data <:+: (toLowerCase "JOHN").data) ∧
    (score (toLowerCase "jk") ⟨1, "JKH", "JOHN"⟩ = 1 ∧
      ∀ (i j : Fin (searchCompanies
          [(⟨1, "JKH", "JOHN"⟩ : Company), ⟨2, "AB", "CD"⟩] "jk").length),
        (searchCompanies [(⟨1, "JKH", "JOHN"⟩ : Company), ⟨2, "AB", "CD"⟩] "jk").get i =
          ⟨1, "JKH", "JOHN"⟩ →
        2 ≤ score (toLowerCase "jk")
          ((searchCompanies [(⟨1, "JKH", "JOHN"⟩ : Company), ⟨2, "AB", "CD"⟩] "jk").get j) →
        i < j) :=
  ⟨by decide, by decide,
    substring_match_outranks _ "jk" _ (by decide) (by decide)⟩

/-- C3: when neither the exact tier nor the substring tier applies, the
score equals the minimum of the three edit distances (query vs symbol,
query vs name, and the minimum over the whitespace-separated words of the
name), and the word component really is the minimum of the per-word
distances. -/
theorem fuzzy_score_min_of_three (query : String) (e : Company)
    (h1 : ¬(toLowerCase e.symbol = toLowerCase query ∨
      toLowerCase e.name = toLowerCase query))
    (h2 : ¬((toLowerCase query).data <:+: (toLowerCase e.symbol).data ∨
      (toLowerCase query).data <:+: (toLowerCase e.name).data)) :
    score (toLowerCase query) e =
      min (levenshteinDistance (toLowerCase query) (toLowerCase e.symbol))
        (min (levenshteinDistance (toLowerCase query) (toLowerCase e.name))
          (minList ((splitWhitespace (toLowerCase e.name)).map
            (fun word => levenshteinDistance (toLowerCase query) word)))) ∧
    minList ((splitWhitespace (toLowerCase e.name)).map
        (fun word => levenshteinDistance (toLowerCase query) word)) ∈
      (splitWhitespace (toLowerCase e.name)).map
        (fun word => levenshteinDistance (toLowerCase query) word) ∧
    ∀ d ∈ (splitWhitespace (toLowerCase e.name)).map
        (fun word => levenshteinDistance (toLowerCase query) word),
      minList ((splitWhitespace (toLowerCase e.name)).map
        (fun word => levenshteinDistance (toLowerCase query) word)) ≤ d := by
  refine ⟨score_fuzzy h1 h2, minList_mem ?_, fun d hd => minList_le d hd⟩
  simp only [ne_eq, List.map_eq_nil_iff]
  exact splitWhitespace_ne_nil _

theorem fuzzy_score_min_of_three_witness :
    (¬(toLowerCase "AB" = toLowerCase "xy" ∨ toLowerCase "CD EF" = toLowerCase "xy")) ∧
    (¬((toLowerCase "xy").data <:+: (toLowerCase "AB").data ∨
      (toLowerCase "xy").data <:+: (toLowerCase "CD EF").data)) ∧
    (score (toLowerCase "xy") ⟨9, "AB", "CD EF"⟩ =
      min (levenshteinDistance (toLowerCase "xy") (toLowerCase "AB"))
        (min (levenshteinDistance (toLowerCase "xy") (toLowerCase "CD EF"))
          (minList ((splitWhitespace (toLowerCase "CD EF")).map
            (fun word => levenshteinDistance (toLowerCase "xy") word)))) ∧
      minList ((splitWhitespace (toLowerCase "CD EF")).map
          (fun word => levenshteinDistance (toLowerCase "xy") word)) ∈
        (splitWhitespace (toLowerCase "CD EF")).map
          (fun word => levenshteinDistance (toLowerCase "xy") word) ∧
      ∀ d ∈ (splitWhitespace (toLowerCase "CD EF")).map
          (fun word => levenshteinDistance (toLowerCase "xy") word),
        minList ((splitWhitespace (toLowerCase "CD EF")).map
          (fun word => levenshteinDistance (toLowerCase "xy") word)) ≤ d) :=
  ⟨by decide, by decide,
    fuzzy_score_min_of_three "xy" ⟨9, "AB", "CD EF"⟩ (by decide) (by decide)⟩

theorem filter_map_fst_scored (query : String) (s : Nat) (cs : List Company) :
    ((cs.map (fun c => (c, score (toLowerCase query) c))).filter
        (fun p => p.2 = s)).map (fun item => item.1) =
      cs.filter (fun c => score (toLowerCase query) c = s) := by
  induction cs with
  | nil => simp
  | cons c cs ih =>
    simp only [List.map_cons, List.filter_cons]
    by_cases hc : score (toLowerCase query) c = s
    · simp [hc, ih]
    · simp [hc, ih]

/-- C4: the sort is stable — for every score value, the entities of that
score appear in the output of `searchCompanies` as an order-preserving
selection (a sublist, in fact an initial segment) of the entities of that
score in catalog order. -/
theorem equal_scores_keep_catalog_order (companies : List Company)
    (query : String) (s : Nat) :
    List.Sublist
      ((searchCompanies companies query).filter
        (fun c => score (toLowerCase query) c = s))
      (companies.filter (fun c => score (toLowerCase query) c = s)) := by
  have hinv : ∀ p ∈ (rankedCompanies companies query).take 3,
      p.2 = score (toLowerCase query) p.1 :=
    fun p hp => rankedCompanies_snd (List.take_subset 3 _ hp)
  have hcomm : ∀ (l : List (Company × Nat)),
      (∀ p ∈ l, p.2 = score (toLowerCase query) p.1) →
      (l.map (fun item => item.1)).filter
          (fun c => score (toLowerCase query) c = s) =
        (l.filter (fun p => p.2 = s)).map (fun item => item.1) := by
    intro l
    induction l with
    | nil => intro _; simp
    | cons p ps ih =>
      intro hl
      have hp := hl p (by simp)
      simp only [List.map_cons, List.filter_cons]
      by_cases hps : p.2 = s
      · have hps' : score (toLowerCase query) p.1 = s := by rw [← hp]; exact hps
        simp [hps', hps, ih (fun q hq => hl q (by simp [hq]))]
      · have hps' : ¬score (toLowerCase query) p.1 = s := by rw [← hp]; exact hps
        simp [hps', hps, ih (fun q hq => hl q (by simp [hq]))]
  rw [searchCompanies, hcomm _ hinv]
  have hsub : List.Sublist
      (((rankedCompanies companies query).take 3).filter (fun p => p.2 = s))
      ((rankedCompanies companies query).filter (fun p => p.2 = s)) :=
    List.Sublist.filter _ (List.take_sublist 3 _)
  have heq : (rankedCompanies companies query).filter (fun p => p.2 = s) =
      (companies.map (fun c => (c, score (toLowerCase query) c))).filter
        (fun p => p.2 = s) := by
    simp only [rankedCompanies]
    exact filter_sortScored s _
  have hmap := filter_map_fst_scored query s companies
  have hfinal := List.Sublist.map (fun item => item.1) hsub
  rw [heq, hmap] at hfinal
  exact hfinal

/-- C5: `searchCompanies` returns exactly `min 3 n` entities for a catalog
of size `n` — never an error and never fewer than the available lowest
scorers: every returned score is at most every score left behind. -/
theorem search_returns_min_three (companies : List Company) (query : String) :
    (searchCompanies companies query).length = min 3 companies.length ∧
    ∀ p ∈ (rankedCompanies companies query).take 3,
      ∀ q ∈ (rankedCompanies companies query).drop 3, p.2 ≤ q.2 := by
  constructor
  · rw [searchCompanies, List.length_map, List.length_take, rankedCompanies_length]
  · have h := rankedCompanies_sorted companies query
    rw [← List.take_append_drop 3 (rankedCompanies companies query),
      List.pairwise_append] at h
    exact fun p hp q hq => h.2.2 p hp q hq

/-- C6: `levenshteinDistance` computes the minimum number of
single-character insertions, deletions and substitutions transforming the
first string into the second: that many operations suffice, and no smaller
number does; in particular the distance from the empty string is the
length. -/
theorem levenshteinDistance_correct (a b : String) :
    levenshteinDistance "" b = b.length ∧
    levenshteinDistance a "" = a.length ∧
    Edits (levenshteinDistance a b) a.data b.data ∧
    (∀ n, Edits n a.data b.data → levenshteinDistance a b ≤ n) := by
  refine ⟨?_, ?_, ?_, ?_⟩
  · rw [levenshteinDistance_eq_lev, show ("" : String).data = [] from rfl,
      lev_nil_left]
    rfl
  · rw [levenshteinDistance_eq_lev, show ("" : String).data = [] from rfl,
      lev_nil_right]
    rfl
  · rw [levenshteinDistance_eq_lev]
    exact lev_achieve _ _
  · intro n h
    rw [levenshteinDistance_eq_lev]
    exact lev_le_of_edits h

theorem levenshteinDistance_correct_witness :
    Edits 1 "ab".data "b".data ∧ levenshteinDistance "ab" "b" ≤ 1 :=
  have hE : Edits 1 "ab".data "b".data :=
    Edits.step (Edit.del [] ['b'] 'a') (Edits.refl _)
  ⟨hE, (levenshteinDistance_correct "ab" "b").2.2.2 1 hE⟩

/-- C7: the edit distance is symmetric. -/
theorem levenshteinDistance_symm (a b : String) :
    levenshteinDistance a b = levenshteinDistance b a := by
  rw [levenshteinDistance_eq_lev, levenshteinDistance_eq_lev, lev_comm]

/-- C8 counterexample: with an entity whose symbol is the empty string, the
empty query hits the exact tier for that entity only, so the output is not
the first `min 3 n` catalog entities in catalog order. -/
theorem empty_query_not_catalog_order :
    searchCompanies [⟨1, "A", "B"⟩, ⟨2, "", "C"⟩] "" ≠
      ([(⟨1, "A", "B"⟩ : Company), ⟨2, "", "C"⟩].take 3) := by
  decide

/-- C8 amended: for every catalog in which no entity has an empty symbol or
an empty name, the empty query scores every entity 1 at the substring tier
and `searchCompanies` returns the first `min 3 n` entities in catalog
order. -/
theorem empty_query_substring_tier (companies : List Company)
    (h : ∀ c ∈ companies, c.symbol ≠ "" ∧ c.name ≠ "") :
    (∀ c ∈ companies, score (toLowerCase "") c = 1) ∧
    searchCompanies companies "" = companies.take 3 := by
  have hsc : ∀ c ∈ companies, score (toLowerCase "") c = 1 := by
    intro c hc
    apply score_substr
    · intro hcon
      rcases hcon with hcon | hcon
      · exact (h c hc).1 (toLowerCase_eq_empty_iff.mp hcon)
      · exact (h c hc).2 (toLowerCase_eq_empty_iff.mp hcon)
    · exact Or.inl ⟨[], (toLowerCase c.symbol).data, rfl⟩
  refine ⟨hsc, ?_⟩
  have hconst : ∀ p ∈ companies.map (fun c => (c, score (toLowerCase "") c)),
      p.2 = 1 := by
    intro p hp
    obtain ⟨c, hc, rfl⟩ := List.mem_map.mp hp
    exact hsc c hc
  have hr : rankedCompanies companies "" =
      companies.map (fun c => (c, score (toLowerCase "") c)) := by
    simp only [rankedCompanies]
    exact sortScored_const 1 hconst
  rw [searchCompanies, hr, ← List.map_take, List.map_map]
  have hid : ((fun item : Company × Nat => item.1) ∘
      fun c => (c, score (toLowerCase "") c)) = id := rfl
  rw [hid, List.map_id]

theorem empty_query_substring_tier_witness :
    (∀ c ∈ [(⟨1, "A", "B"⟩ : Company)], c.symbol ≠ "" ∧ c.name ≠ "") ∧
    ((∀ c ∈ [(⟨1, "A", "B"⟩ : Company)], score (toLowerCase "") c = 1) ∧
      searchCompanies [(⟨1, "A", "B"⟩ : Company)] "" =
        [(⟨1, "A", "B"⟩ : Company)].take 3) :=
  ⟨by decide, empty_query_substring_tier _ (by decide)⟩

/-- C9: threading the module-level `companies` binding as explicit state,
a `searchCompanies` call leaves the catalog value unchanged — the same
records, in the same order. -/
theorem search_leaves_catalog_unchanged (companies : List Company) (query : String) :
    (searchCompaniesSt companies query).2 = companies ∧
    (searchCompaniesSt companies query).1 = searchCompanies companies query :=
  ⟨rfl, rfl⟩

/-- C10: every entity returned by `searchCompanies` is one of the catalog
records themselves — id, symbol and name exactly as stored. -/
theorem search_returns_catalog_records (companies : List Company) (query : String) :
    ∀ c ∈ searchCompanies companies query, c ∈ companies := by
  intro c hc
  rw [searchCompanies] at hc
  obtain ⟨p, hp, rfl⟩ := List.mem_map.mp hc
  have hp2 : p ∈ rankedCompanies companies query := List.take_subset 3 _ hp
  simp only [rankedCompanies] at hp2
  rw [mem_sortScored] at hp2
  obtain ⟨c', hc', rfl⟩ := List.mem_map.mp hp2
  exact hc'

theorem search_returns_catalog_records_witness :
    (⟨1, "A", "B"⟩ : Company) ∈ searchCompanies [(⟨1, "A", "B"⟩ : Company)] "a" ∧
    (⟨1, "A", "B"⟩ : Company) ∈ [(⟨1, "A", "B"⟩ : Company)] :=
  ⟨by decide, search_returns_catalog_records _ "a" _ (by decide)⟩
